import Mathlib

/-!
Shallow embedding, in Lean 4, of the parts of the websocket-ide backend
(a Rust repository) that the verified claims refer to:

* the workspace path jail (src/utils/path_utils.rs),
* the document manager (src/file_system/document_manager.rs),
* the LSP request/pending-slot correlation (src/lsp/lsp_server.rs),
* the search manager's query dispatch (src/search/search_manager.rs),
* the filesystem event batcher (src/file_system/event_batcher.rs).

Modelling conventions, used throughout:

* Rust HashMap values are modelled as association lists with first-match
  lookup; insert replaces every binding of the key in place, remove filters.
* Rust u64 arithmetic is modelled on Nat with explicit reduction mod 2^64
  where the source can wrap (release-build semantics of overflow); a
  separate predicate names the condition under which a subtraction
  underflows (which is a panic in debug builds).
* Async functions that mutate shared state and may fail are modelled as
  pure functions returning the final state together with an Except value,
  so that the state left behind by a failing call is observable.
* The filesystem is an explicit association list from path strings to file
  records; wall-clock instants are Nat millisecond/second counts passed in
  as arguments where the source calls a clock.
* Text decoding (chardetng + encoding_rs in the source) is modelled as an
  injective byte-to-character map, faithful for single-byte encodings.
  Saving writes the decoded Rust String back with fs::write, i.e. the
  text's UTF-8 bytes; the model encodes UTF-8 explicitly, so a non-ASCII
  single-byte source file does NOT round-trip byte-identically through
  open-then-save, exactly as in the program.
-/

namespace WsIde

/-- 2^64, the modulus of Rust u64 arithmetic. -/
def U64MOD : Nat := 18446744073709551616

/-- Rust u64 wrapping addition (release-build semantics). -/
def u64add (a b : Nat) : Nat := (a + b) % U64MOD

/-- Rust u64 wrapping subtraction (release-build semantics). -/
def u64sub (a b : Nat) : Nat := (a + (U64MOD - b % U64MOD)) % U64MOD

/-- The condition under which the Rust u64 subtraction a - b underflows:
panic in debug builds, wraparound in release builds. -/
def u64SubUnderflows (a b : Nat) : Prop := b % U64MOD > a % U64MOD

/-- First-match lookup in an association list keyed by strings
(model of HashMap get). -/
def lookupA {β : Type} (l : List (String × β)) (k : String) : Option β :=
  (l.find? (fun kv => kv.1 = k)).map (fun kv => kv.2)

/-- Insert or replace a binding (model of HashMap insert). -/
def insertA {β : Type} (l : List (String × β)) (k : String) (v : β) :
    List (String × β) :=
  if (l.find? (fun kv => kv.1 = k)).isSome then
    l.map (fun kv => if kv.1 = k then (k, v) else kv)
  else
    l ++ [(k, v)]

/-- Remove every binding of a key (model of HashMap remove). -/
def removeA {β : Type} (l : List (String × β)) (k : String) :
    List (String × β) :=
  l.filter (fun kv => kv.1 ≠ k)

/-! ## Path jail (src/utils/path_utils.rs)

A PathBuf is modelled as an absoluteness flag plus its list of normal
components; parsing a Rust path string splits on the slash character and,
as Rust Components iteration does, drops empty segments and single-dot
segments. The dot-dot segment is kept, as Rust keeps ParentDir components.
fs canonicalize is modelled as lexical resolution of dot-dot components on
a symlink-free filesystem in which every named path exists (canonicalize
can additionally fail with a not-found error on a real filesystem; that
failure only removes acceptances and cannot affect which paths are
accepted nor their shape). -/

/-- Model of PathBuf: absoluteness flag and component list. -/
structure Pathbuf where
  abs : Bool
  comps : List String
deriving DecidableEq, Repr

/-- Split a character list at slashes. -/
def splitSlash : List Char → List (List Char)
  | [] => [[]]
  | c :: rest =>
    if c = '/' then [] :: splitSlash rest
    else
      match splitSlash rest with
      | [] => [[c]]
      | l :: ls => (c :: l) :: ls

/-- Model of PathBuf.from on a Rust path string: the path is absolute
when its first character is a slash; empty and single-dot segments are
dropped, as Rust Components normalization does. -/
def parsePath (s : String) : Pathbuf :=
  { abs := match s.toList with
      | '/' :: _ => true
      | _ => false
    comps := ((splitSlash s.toList).map (fun l => String.mk l)).filter
      (fun seg => seg ≠ "" ∧ seg ≠ ".") }

/-- Model of PathBuf.to_string_lossy, as a character list. -/
def pathChars (p : Pathbuf) : List Char :=
  (if p.abs then ['/'] else []) ++
    (String.intercalate "/" p.comps).toList

/-- Model of Path.starts_with (component-wise prefix). -/
def pathStartsWith (p q : Pathbuf) : Bool :=
  p.abs = q.abs && q.comps.isPrefixOf p.comps

/-- Model of PathBuf.join: an absolute right operand replaces the left. -/
def pathJoin (p q : Pathbuf) : Pathbuf :=
  if q.abs then q else { abs := p.abs, comps := p.comps ++ q.comps }

/-- Lexical resolution of dot-dot components (dot components were already
dropped at parse time): a dot-dot pops the last resolved component, as on
a symlink-free Unix filesystem, and at the root it is a no-op. -/
def normComps (cs : List String) : List String :=
  cs.foldl (fun acc c => if c = ".." then acc.dropLast else acc ++ [c]) []

/-- Model of fs canonicalize on a symlink-free filesystem where every
path exists: the result is absolute with dot-dots resolved away. -/
def canonicalizePath (p : Pathbuf) : Pathbuf :=
  { abs := true, comps := normComps p.comps }

/-- Error type of the path jail (the source uses anyhow string errors;
the bail sites are in bijection with these constructors). -/
inductive PathError where
  | outsideWorkspace
deriving DecidableEq, Repr

/-- Model of join_workspace_path (src/utils/path_utils.rs lines 7-29).
The second branch is the source's string-level starts_with check on the
lossy rendering of the workspace root. -/
def join_workspace_path (workspace_root : Pathbuf) (relative_path : String) :
    Except PathError Pathbuf :=
  if relative_path = "" then
    Except.ok workspace_root
  else if (pathChars workspace_root).isPrefixOf relative_path.toList then
    Except.ok (parsePath relative_path)
  else if pathStartsWith (pathJoin workspace_root (parsePath relative_path))
      workspace_root then
    Except.ok (pathJoin workspace_root (parsePath relative_path))
  else Except.error PathError.outsideWorkspace

/-- Model of validate_workspace_path (src/utils/path_utils.rs lines 63-70). -/
def validate_workspace_path (workspace_root : Pathbuf) (path : Pathbuf) :
    Except PathError Unit :=
  if pathStartsWith path workspace_root then Except.ok ()
  else Except.error PathError.outsideWorkspace

/-- Model of get_full_path (src/utils/path_utils.rs lines 31-36):
join with the workspace root, canonicalize, validate. -/
def get_full_path (workspace_root : Pathbuf) (relative_path : String) :
    Except PathError Pathbuf :=
  match join_workspace_path workspace_root relative_path with
  | Except.error e => Except.error e
  | Except.ok joined_path =>
    let canonical := canonicalizePath joined_path
    match validate_workspace_path workspace_root canonical with
    | Except.error e => Except.error e
    | Except.ok _ => Except.ok canonical

/-- A path is canonical when it is absolute and its components contain no
empty, dot or dot-dot segment. -/
def isCanonicalPath (p : Pathbuf) : Prop :=
  p.abs = true ∧ ∀ c ∈ p.comps, c ≠ "" ∧ c ≠ "." ∧ c ≠ ".."

/-! ## LSP request correlation (src/lsp/lsp_server.rs)

The adapter state the claim is about: the monotonically allocated request
counter (AtomicU64 fetch_add) and the set of request ids holding a
registered one-shot reply slot in the pending_requests map. The value sent
through the slot is irrelevant to the claim and elided. -/

/-- Errors surfaced by send_request. -/
inductive LspError where
  | channelClosed
  | timeout
deriving DecidableEq, Repr

/-- Model of the LspServer correlation state. -/
structure LspState where
  request_counter : Nat
  pending : List Nat
deriving DecidableEq, Repr

/-- Fresh adapter state (LspServer.initialize lines 108-109). -/
def initialLspState : LspState := { request_counter := 0, pending := [] }

/-- Register a one-shot slot under a fresh id (send_request lines 252-263):
fetch_add on the counter, insert into the pending map. -/
def registerRequest (s : LspState) : LspState × Nat :=
  let id := s.request_counter % U64MOD
  ({ request_counter := u64add s.request_counter 1
     pending := if id ∈ s.pending then s.pending else s.pending ++ [id] },
   id)

/-- Model of the reader task's response dispatch (handle_messages lines
230-237): remove the pending entry for the id, delivering iff one existed. -/
def handle_response (s : LspState) (id : Nat) : LspState × Bool :=
  if id ∈ s.pending then
    ({ s with pending := s.pending.erase id }, true)
  else (s, false)

/-- What the environment does to an in-flight request before the 30 s
timeout fires. -/
inductive ReplyEvent where
  | response
  | closed
  | timeout
deriving DecidableEq, Repr

/-- Model of send_request (src/lsp/lsp_server.rs lines 251-274): allocate
an id, register the slot, then await the reply. A response is delivered
through handle_response by the reader task; on channel closure and on
timeout the source returns the error without touching pending_requests. -/
def send_request (s : LspState) (ev : ReplyEvent) :
    LspState × Except LspError Unit :=
  let (s1, id) := registerRequest s
  match ev with
  | ReplyEvent.response => ((handle_response s1 id).1, Except.ok ())
  | ReplyEvent.closed => (s1, Except.error LspError.channelClosed)
  | ReplyEvent.timeout => (s1, Except.error LspError.timeout)

/-! ## Search manager query dispatch (src/search/search_manager.rs)

The state create_search consults and updates, plus the observable actions
it performs on the nucleo matcher, in order. -/

/-- Search modes. -/
inductive SearchMode where
  | Filename
  | Content
deriving DecidableEq, Repr

/-- The SearchManager state create_search touches. -/
structure SearchState where
  last_query : Option String
  current_mode : SearchMode
  is_searching : Bool
deriving DecidableEq, Repr

/-- State as built by SearchManager.new (lines 57-64). -/
def initialSearchState : SearchState :=
  { last_query := none
    current_mode := SearchMode.Filename
    is_searching := false }

/-- Observable matcher actions of create_search, in program order:
restarting the matcher, re-indexing the workspace rows for a mode (the
source function that walks the workspace and injects rows), and setting
the pattern with the given append flag. -/
inductive SearchAction where
  | restart
  | indexWorkspace (mode : SearchMode)
  | reparse (query : String) (append : Bool)
deriving DecidableEq, Repr

/-- Model of create_search (src/search/search_manager.rs lines 177-228):
initialization is keyed on the mode changing only; otherwise the pattern
is reparsed over the existing index, with append set when the new query
extends the previous one in the same mode. -/
def create_search (s : SearchState) (query : String) (search_content : Bool) :
    SearchState × List SearchAction :=
  let new_mode := if search_content then SearchMode.Content
                  else SearchMode.Filename
  let mode_changed := decide (s.current_mode ≠ new_mode)
  let initialization_needed := mode_changed
  let should_reparse :=
    match s.last_query with
    | some last => query.startsWith last && !mode_changed
    | none => false
  if initialization_needed then
    ({ last_query := some query, current_mode := new_mode,
       is_searching := true },
     [SearchAction.restart, SearchAction.indexWorkspace new_mode,
      SearchAction.reparse query false])
  else
    ({ last_query := some query, current_mode := new_mode,
       is_searching := true },
     [SearchAction.reparse query should_reparse])

/-! ## Document manager (src/file_system/document_manager.rs)

Paths are carried as their string rendering. The filesystem is an
association list from path strings to file records (raw bytes plus the
stat flags the manager reads); the claims touch no directories, so a file
record is always a regular file or a symlink target. Timestamps returned
by stat are not modelled (DocumentState.last_modification is set from the
clock argument that models SystemTime::now, and from 0 at first open). -/

/-- A file on disk: raw bytes (each < 256) and the stat flags read by the
document manager. -/
structure DiskFile where
  bytes : List Nat
  isSymlink : Bool
  readonly : Bool
deriving DecidableEq, Repr

/-- The filesystem: path string to file record. -/
abbrev Disk := List (String × DiskFile)

/-- MAX_FILE_SIZE (document_manager.rs line 10): 10 MiB. -/
def MAX_FILE_SIZE : Nat := 10 * 1024 * 1024

/-- CACHE_SIZE_LIMIT (document_manager.rs line 11): 1 MiB. -/
def CACHE_SIZE_LIMIT : Nat := 1024 * 1024

/-- Byte length of one character in UTF-8. -/
def charUtf8Size (c : Char) : Nat :=
  if c.toNat < 128 then 1
  else if c.toNat < 2048 then 2
  else if c.toNat < 65536 then 3
  else 4

/-- Model of Rust String::len: the UTF-8 byte length. -/
def strByteLen (s : String) : Nat :=
  (s.toList.map charUtf8Size).sum

/-- Model of the detect-encoding-and-decode step on raw bytes: an
injective byte-to-character map (faithful for single-byte encodings). -/
def decodeBytes (bytes : List Nat) : String :=
  String.mk (bytes.map (fun b => Char.ofNat (b % 256)))

/-- UTF-8 encoding of one character, as byte values (what Rust appends
to a file for this character when a String is written). -/
def utf8EncodeChar (c : Char) : List Nat :=
  let n := c.toNat
  if n < 128 then [n]
  else if n < 2048 then [192 + n / 64, 128 + n % 64]
  else if n < 65536 then
    [224 + n / 4096, 128 + (n / 64) % 64, 128 + n % 64]
  else
    [240 + n / 262144, 128 + (n / 4096) % 64, 128 + (n / 64) % 64,
     128 + n % 64]

/-- Model of fs::write applied to the decoded text on save
(document_manager.rs line 297): the Rust String is written as its UTF-8
bytes. A character decoded from a non-ASCII single byte therefore comes
back as a multi-byte sequence, changing the on-disk bytes. -/
def encodeString (s : String) : List Nat :=
  (s.toList.map utf8EncodeChar).flatten

/-- FileType (document_manager.rs lines 20-25). -/
inductive FileType where
  | Text
  | Binary
  | SymLink
  | Unknown
deriving DecidableEq, Repr

/-- LineEnding (document_manager.rs lines 54-59). -/
inductive LineEnding where
  | CRLF
  | LF
  | Mixed
deriving DecidableEq, Repr

/-- DocumentMetadata (document_manager.rs lines 33-44), restricted to the
fields that the embedded operations read or that the claims mention;
timestamps and the encoding label/confidence record are elided. -/
structure DocumentMetadata where
  size : Nat
  is_symlink : Bool
  readonly : Bool
  file_type : FileType
  line_ending : LineEnding
deriving DecidableEq, Repr

/-- DocumentState (document_manager.rs lines 46-52). -/
structure DocumentState where
  is_open : Bool
  version : Int
  last_modification : Nat
  is_dirty : Bool
deriving DecidableEq, Repr

/-- CacheEntry (document_manager.rs lines 61-66); the last_accessed
instant is read by no operation and is elided. -/
structure CacheEntry where
  content : String
  metadata : DocumentMetadata
deriving DecidableEq, Repr

/-- VersionedDocument (document_manager.rs lines 13-17). -/
structure VersionedDocument where
  uri : String
  version : Int
deriving DecidableEq, Repr

/-- DiffChange (document_manager.rs lines 79-84). -/
structure DiffChange where
  value : String
  added : Bool
  removed : Bool
deriving DecidableEq, Repr

/-- DocumentManager state (document_manager.rs lines 68-77). -/
structure DocManager where
  document_states : List (String × DocumentState)
  cache : List (String × CacheEntry)
  cache_queue : List String
  max_cache_size : Nat
  current_cache_size : Nat
deriving DecidableEq, Repr

/-- DocumentManager::new (document_manager.rs lines 89-101). -/
def emptyManager : DocManager :=
  { document_states := []
    cache := []
    cache_queue := []
    max_cache_size := CACHE_SIZE_LIMIT
    current_cache_size := 0 }

/-- Errors of the document manager (the source uses anyhow string errors;
the bail and error sites are in bijection with these constructors). -/
inductive DocError where
  | notFound
  | fileTooLarge
  | cannotReadBinary
  | cannotReadSymlink
  | notOpen
  | versionConflict
  | invalidChange
  | notInCache
deriving DecidableEq, Repr

/-- Model of detect_file_type (document_manager.rs lines 104-121): a zero
byte among the first 512 bytes classifies Binary, then the symlink stat
classifies SymLink, else Text. -/
def detect_file_type (f : DiskFile) : FileType :=
  if (f.bytes.take 512).any (fun b => b = 0) then FileType.Binary
  else if f.isSymlink then FileType.SymLink
  else FileType.Text

/-- Model of Rust str::split_inclusive on the newline character: chunks
keep their terminating newline; no empty trailing chunk is produced. -/
def splitInclusiveNl : List Char → List (List Char)
  | [] => []
  | c :: rest =>
    if c = '\n' then [c] :: splitInclusiveNl rest
    else
      match splitInclusiveNl rest with
      | [] => [[c]]
      | l :: ls => (c :: l) :: ls

/-- The per-chunk map of Rust str::lines: strip one trailing newline if
present, and only then one trailing carriage return. A final chunk with no
newline keeps any trailing carriage return. -/
def rustLinesMap (l : List Char) : List Char :=
  match l.getLast? with
  | some c =>
    if c = '\n' then
      let l1 := l.dropLast
      match l1.getLast? with
      | some c1 => if c1 = '\r' then l1.dropLast else l1
      | none => l1
    else l
  | none => l

/-- Model of Rust str::lines, the iterator detect_line_ending walks. -/
def rustLines (content : String) : List (List Char) :=
  (splitInclusiveNl content.toList).map rustLinesMap

/-- The flag-accumulating loop of detect_line_ending: returns Mixed as
soon as both flags are set, else falls through to the final decision. -/
def detectLineEndingLoop : List (List Char) → Bool → Bool → LineEnding
  | [], has_crlf, _ => if has_crlf then LineEnding.CRLF else LineEnding.LF
  | line :: rest, has_crlf, has_lf =>
    let ends_cr := line.getLast? = some '\r'
    let has_crlf1 := has_crlf || ends_cr
    let has_lf1 := has_lf || !ends_cr
    if has_crlf1 && has_lf1 then LineEnding.Mixed
    else detectLineEndingLoop rest has_crlf1 has_lf1

/-- Model of detect_line_ending (document_manager.rs lines 136-157). -/
def detect_line_ending (content : String) : LineEnding :=
  detectLineEndingLoop (rustLines content) false false

/-- The eviction loop of cache_content (document_manager.rs lines
464-473): while the counter plus the incoming size exceeds the budget,
pop the queue head and drop its entry, decrementing the counter; break
when the queue empties. -/
def evictLoop (cache : List (String × CacheEntry)) (queue : List String)
    (cur : Nat) (len : Nat) (maxSize : Nat) :
    List (String × CacheEntry) × List String × Nat :=
  match queue with
  | [] => (cache, [], cur)
  | p :: rest =>
    if u64add cur len ≤ maxSize then (cache, p :: rest, cur)
    else
      match lookupA cache p with
      | some e =>
        evictLoop (removeA cache p) rest
          (u64sub cur (strByteLen e.content)) len maxSize
      | none => evictLoop cache rest cur len maxSize

/-- Model of cache_content (document_manager.rs lines 454-484): evict
from the queue head, then insert the entry and push the path on the
queue. Note, faithful to the source: the counter is never incremented
for the inserted entry. -/
def cache_content (m : DocManager) (path : String) (content : String)
    (metadata : DocumentMetadata) : DocManager :=
  let step := evictLoop m.cache m.cache_queue m.current_cache_size
    (strByteLen content) m.max_cache_size
  { m with
    cache := insertA step.1 path { content := content, metadata := metadata }
    cache_queue := step.2.1 ++ [path]
    current_cache_size := step.2.2 }

/-- Model of invalidate_cache_for_file (document_manager.rs lines
486-492): drop the entry, decrement the counter by the content byte
length (u64 subtraction), and purge the path from the queue. -/
def invalidate_cache_for_file (m : DocManager) (path : String) : DocManager :=
  match lookupA m.cache path with
  | some entry =>
    { m with
      cache := removeA m.cache path
      current_cache_size :=
        u64sub m.current_cache_size (strByteLen entry.content)
      cache_queue := m.cache_queue.filter (fun p => p ≠ path) }
  | none => m

/-- Metadata as built by get_document_content (lines 366-378) from a stat
and the decoded content. -/
def mkMetadata (f : DiskFile) (ft : FileType) (content : String) :
    DocumentMetadata :=
  { size := f.bytes.length
    is_symlink := f.isSymlink
    readonly := f.readonly
    file_type := ft
    line_ending := detect_line_ending content }

/-- Model of get_document_content (document_manager.rs lines 315-386):
cache hit returns the entry; otherwise stat (failing notFound on a
missing file), size gate, file-type gate, read and decode, then cache
when the file size fits the per-file limit. -/
def get_document_content (disk : Disk) (m : DocManager) (path : String) :
    DocManager × Except DocError String :=
  match lookupA m.cache path with
  | some entry => (m, Except.ok entry.content)
  | none =>
    match lookupA disk path with
    | none => (m, Except.error DocError.notFound)
    | some f =>
      if f.bytes.length > MAX_FILE_SIZE then
        (m, Except.error DocError.fileTooLarge)
      else
        match detect_file_type f with
        | FileType.Binary => (m, Except.error DocError.cannotReadBinary)
        | FileType.SymLink => (m, Except.error DocError.cannotReadSymlink)
        | ft =>
          let content := decodeBytes f.bytes
          if f.bytes.length ≤ CACHE_SIZE_LIMIT then
            (cache_content m path content (mkMetadata f ft content),
             Except.ok content)
          else (m, Except.ok content)

/-- The fresh DocumentState inserted by open_file (document_manager.rs
lines 401-410): version 0, open, clean. The modification timestamp read
from stat is not modelled and set to 0. -/
def freshDocState : DocumentState :=
  { is_open := true, version := 0, last_modification := 0,
    is_dirty := false }

/-- Model of open_file (document_manager.rs lines 389-451): when no
DocumentState exists the file is stat-ed and a fresh state at version 0
is inserted FIRST; only then is the content read through
get_document_content, whose failure leaves the inserted state behind.
The returned metadata comes from the cache entry when present, else is
recomputed (lines 423-447). -/
def open_file (disk : Disk) (m : DocManager) (path : String) :
    DocManager × Except DocError (String × DocumentMetadata × Int) :=
  let step1 : DocManager × Except DocError Int :=
    match lookupA m.document_states path with
    | some st => (m, Except.ok st.version)
    | none =>
      match lookupA disk path with
      | none => (m, Except.error DocError.notFound)
      | some _ =>
        let states1 := insertA m.document_states path freshDocState
        ({ m with document_states := states1 }, Except.ok 0)
  match step1 with
  | (m1, Except.error e) => (m1, Except.error e)
  | (m1, Except.ok version) =>
    match get_document_content disk m1 path with
    | (m2, Except.error e) => (m2, Except.error e)
    | (m2, Except.ok content) =>
      match lookupA m2.cache path with
      | some entry => (m2, Except.ok (content, entry.metadata, version))
      | none =>
        match lookupA disk path with
        | none => (m2, Except.error DocError.notFound)
        | some f =>
          (m2, Except.ok
            (content, mkMetadata f (detect_file_type f) content, version))

/-- The change-application loop of change_document (lines 205-229): a
cursor into the current character sequence and an output buffer; removed
runs advance the cursor unchecked, unchanged runs copy from the cursor
(failing when they would overrun), added runs append their value. -/
def applyChanges (chars : List Char) :
    List DiffChange → Nat → List Char → Except DocError (List Char)
  | [], _, out => Except.ok out
  | change :: rest, last_position, out =>
    if change.removed then
      applyChanges chars rest (last_position + change.value.toList.length) out
    else if !change.added && !change.removed then
      let unchanged_len := change.value.toList.length
      if last_position + unchanged_len > chars.length then
        Except.error DocError.invalidChange
      else
        applyChanges chars rest (last_position + unchanged_len)
          (out ++ ((chars.drop last_position).take unchanged_len))
    else
      applyChanges chars rest last_position (out ++ change.value.toList)

/-- The current-content step of change_document (document_manager.rs
lines 187-195): the text is taken from the cache when present, else read
from disk (the source uses read_to_string there). -/
def currentContentOf (disk : Disk) (m : DocManager) (path : String) :
    Except DocError String :=
  match lookupA m.cache path with
  | some entry => Except.ok entry.content
  | none =>
    match lookupA disk path with
    | some f => Except.ok (decodeBytes f.bytes)
    | none => Except.error DocError.notFound

/-- Model of change_document (document_manager.rs lines 170-269): state
lookup, strict version check (conflict unless the proposed version
exceeds the stored one), current text from cache else disk, change
application, metadata rebuild from a fresh stat, cache replacement, then
the stored version is INCREMENTED BY ONE and returned. The now argument
models SystemTime::now in seconds. -/
def change_document (disk : Disk) (m : DocManager) (doc : VersionedDocument)
    (changes : List DiffChange) (now : Nat) :
    DocManager × Except DocError VersionedDocument :=
  match lookupA m.document_states doc.uri with
  | none => (m, Except.error DocError.notOpen)
  | some state =>
    if state.version ≥ doc.version then
      (m, Except.error DocError.versionConflict)
    else
      match currentContentOf disk m doc.uri with
      | Except.error e => (m, Except.error e)
      | Except.ok current_content =>
        match applyChanges current_content.toList changes 0 [] with
        | Except.error e => (m, Except.error e)
        | Except.ok result_chars =>
          let result := String.mk result_chars
          match lookupA disk doc.uri with
          | none => (m, Except.error DocError.notFound)
          | some f =>
            let doc_metadata : DocumentMetadata :=
              { size := f.bytes.length
                is_symlink := f.isSymlink
                readonly := f.readonly
                file_type := FileType.Text
                line_ending := detect_line_ending result }
            let m1 := cache_content m doc.uri result doc_metadata
            let newState : DocumentState :=
              { state with
                version := state.version + 1
                is_dirty := true
                last_modification := now }
            ({ m1 with document_states :=
                insertA m1.document_states doc.uri newState },
             Except.ok { uri := doc.uri, version := state.version + 1 })

/-- Replace the byte content of a file record, keeping its stat flags. -/
def diskSetBytes (bytes : List Nat) (d : DiskFile) : DiskFile :=
  { bytes := bytes, isSymlink := d.isSymlink, readonly := d.readonly }

/-- Model of fs write: replace the bytes of an existing file, else create
a fresh regular file. -/
def diskWrite (disk : Disk) (path : String) (bytes : List Nat) : Disk :=
  if (disk.find? (fun kv => kv.1 = path)).isSome then
    disk.map (fun kv =>
      if kv.1 = path then (kv.1, diskSetBytes bytes kv.2) else kv)
  else
    disk ++ [(path, { bytes := bytes, isSymlink := false, readonly := false })]

/-- Model of save_document (document_manager.rs lines 271-313): state
lookup, the same strict version check as change_document, content must be
in the cache, bytes are written to disk, the dirty flag clears, and the
STORED VERSION IS RETURNED UNCHANGED (no increment is performed). -/
def save_document (disk : Disk) (m : DocManager) (doc : VersionedDocument)
    (now : Nat) : Disk × DocManager × Except DocError VersionedDocument :=
  match lookupA m.document_states doc.uri with
  | none => (disk, m, Except.error DocError.notOpen)
  | some state =>
    if state.version ≥ doc.version then
      (disk, m, Except.error DocError.versionConflict)
    else
      match lookupA m.cache doc.uri with
      | none => (disk, m, Except.error DocError.notInCache)
      | some entry =>
        let disk1 := diskWrite disk doc.uri (encodeString entry.content)
        let newState : DocumentState :=
          { state with is_dirty := false, last_modification := now }
        (disk1,
         { m with document_states :=
            insertA m.document_states doc.uri newState },
         Except.ok { uri := doc.uri, version := state.version })

/-! ## Event batcher (src/file_system/event_batcher.rs)

Time is a millisecond count passed to each operation (modelling
Instant::now and elapsed); the timeout-checker task's periodic wakeups are
modelled as explicit tick steps. -/

/-- FileEvent (src/file_system/file_event.rs), with paths as strings and
timestamps in milliseconds; the metadata payload is irrelevant to the
batching claim and elided. -/
inductive FileEvent where
  | created (path : String) (ts : Nat)
  | modified (path : String) (ts : Nat)
  | deleted (path : String) (ts : Nat)
deriving DecidableEq, Repr

/-- EventBatcher state (event_batcher.rs lines 11-18); the outbound
channel is modelled by returning emitted batches. -/
structure EventBatcher where
  batch_size : Nat
  batch_timeout : Nat
  events : List FileEvent
  last_emit : Nat
deriving DecidableEq, Repr

/-- EventBatcher::new (event_batcher.rs lines 21-33), at a creation
instant. -/
def newBatcher (batch_size : Nat) (batch_timeout : Nat) (now : Nat) :
    EventBatcher :=
  { batch_size := batch_size
    batch_timeout := batch_timeout
    events := []
    last_emit := now }

/-- should_emit (event_batcher.rs lines 43-46) at a given instant. -/
def should_emit (b : EventBatcher) (now : Nat) : Bool :=
  b.events.length ≥ b.batch_size || now - b.last_emit ≥ b.batch_timeout

/-- emit_batch (event_batcher.rs lines 48-60): nothing is sent when the
buffer is empty; otherwise the buffer is taken whole as the batch and
last_emit resets. -/
def emit_batch (b : EventBatcher) (now : Nat) :
    EventBatcher × Option (List FileEvent) :=
  if b.events.isEmpty then (b, none)
  else ({ b with events := [], last_emit := now }, some b.events)

/-- add_event (event_batcher.rs lines 35-41): push, then emit if
should_emit. -/
def add_event (b : EventBatcher) (e : FileEvent) (now : Nat) :
    EventBatcher × Option (List FileEvent) :=
  let b1 := { b with events := b.events ++ [e] }
  if should_emit b1 now then emit_batch b1 now else (b1, none)

/-- One wakeup of the timeout checker (event_batcher.rs lines 72-79):
emit when the buffer is non-empty and the timeout has elapsed since the
last emission. -/
def timeout_tick (b : EventBatcher) (now : Nat) :
    EventBatcher × Option (List FileEvent) :=
  if !b.events.isEmpty && now - b.last_emit ≥ b.batch_timeout then
    emit_batch b now
  else (b, none)

/-- A trace step offered to the batcher: an event arrival or a
timeout-checker wakeup, each at an instant. -/
inductive BatchOp where
  | add (e : FileEvent) (now : Nat)
  | tick (now : Nat)
deriving DecidableEq, Repr

/-- Run one trace step. -/
def batchStep (b : EventBatcher) : BatchOp → EventBatcher × Option (List FileEvent)
  | BatchOp.add e now => add_event b e now
  | BatchOp.tick now => timeout_tick b now

/-- Run a trace, collecting every emitted batch in order. -/
def batchRun (b : EventBatcher) : List BatchOp →
    EventBatcher × List (List FileEvent)
  | [] => (b, [])
  | op :: rest =>
    let (b1, emitted) := batchStep b op
    let (b2, batches) := batchRun b1 rest
    (b2, (match emitted with | some batch => [batch] | none => []) ++ batches)

/-- The events added by a trace, in order. -/
def addedEvents : List BatchOp → List FileEvent
  | [] => []
  | BatchOp.add e _ :: rest => e :: addedEvents rest
  | BatchOp.tick _ :: rest => addedEvents rest

/-- The buffer-bound invariant of the batcher: strictly fewer buffered
events than the batch size (the buffer is drained the moment it fills). -/
def batcherInv (b : EventBatcher) : Prop :=
  b.events.length < b.batch_size

/-! ## Derived observations and concrete instances

Derived quantities the claims speak about, and the concrete workspaces,
managers and calls at which witnesses and counterexamples evaluate the
model. -/

/-- Total byte length of all cached document contents (the quantity the
cache-budget invariant bounds). -/
def cachedBytesTotal (m : DocManager) : Nat :=
  (m.cache.map (fun kv => strByteLen kv.2.content)).sum

/-- Run a sequence of cache_content calls. -/
def foldCache (calls : List (String × String × DocumentMetadata))
    (m : DocManager) : DocManager :=
  calls.foldl (fun acc c => cache_content acc c.1 c.2.1 c.2.2) m

/-- A string of n ASCII bytes (one UTF-8 byte each). -/
def mkA (n : Nat) : String := String.mk (List.replicate n 'a')

/-- A concrete canonical workspace root. -/
def rootEx : Pathbuf := { abs := true, comps := ["home", "user", "ws"] }

/-- A one-file workspace: a.txt holds the six bytes of the text
hello-newline. -/
def diskHello : Disk :=
  [("/ws/a.txt",
    { bytes := [104, 101, 108, 108, 111, 10], isSymlink := false,
      readonly := false })]

/-- A workspace with one binary file: a zero byte inside the first 512
bytes. -/
def diskBin : Disk :=
  [("/ws/b.bin", { bytes := [0, 65], isSymlink := false, readonly := false })]

/-- A workspace with one non-UTF-8 single-byte text file: the byte 0xE9
(latin small letter e with acute in windows-1252/latin-1) followed by a
newline. It passes the binary check and decodes to a two-character
text. -/
def diskLatin : Disk :=
  [("/ws/e.txt", { bytes := [233, 10], isSymlink := false,
                   readonly := false })]

/-- Arbitrary fixed metadata for direct cache_content calls. -/
def mdEx : DocumentMetadata :=
  { size := 0, is_symlink := false, readonly := false,
    file_type := FileType.Text, line_ending := LineEnding.LF }

/-- A manager with a.txt open at version 0 and its content cached. -/
def mC2 : DocManager :=
  { emptyManager with
    document_states :=
      [("/ws/a.txt",
        { is_open := true, version := 0, last_modification := 0,
          is_dirty := false })]
    cache :=
      [("/ws/a.txt", { content := "hello\n", metadata := mdEx })] }

/-- Two cache_content calls of 600000 bytes each against the 1 MiB
budget. -/
def dmC3 : DocManager :=
  cache_content (cache_content emptyManager "p1" (mkA 600000) mdEx)
    "p2" (mkA 600000) mdEx

/-- A 1-byte entry followed by an over-budget entry, which drives the
eviction loop through its decrement with the counter at zero. -/
def dmC4 : DocManager :=
  cache_content (cache_content emptyManager "p1" (mkA 1) mdEx)
    "p2" (mkA 1048577) mdEx

/-! ## Helper lemmas -/

theorem lookupA_cons {β : Type} (kv : String × β) (l : List (String × β))
    (k : String) :
    lookupA (kv :: l) k = if kv.1 = k then some kv.2 else lookupA l k := by
  by_cases h : kv.1 = k <;> simp [lookupA, List.find?, h]

theorem lookupA_map_replace_eq {β : Type} (l : List (String × β))
    (k : String) (v : β) (h : (l.find? (fun kv => kv.1 = k)).isSome) :
    lookupA (l.map (fun kv => if kv.1 = k then (k, v) else kv)) k = some v := by
  induction l with
  | nil => simp at h
  | cons kv rest ih =>
    by_cases hk : kv.1 = k
    · simp [hk, lookupA_cons]
    · have hrest : (rest.find? (fun kv => kv.1 = k)).isSome := by
        simpa [List.find?, hk] using h
      simpa [hk, lookupA_cons] using ih hrest

theorem lookupA_map_replace_ne {β : Type} (l : List (String × β))
    (k k' : String) (v : β) (h : k' ≠ k) :
    lookupA (l.map (fun kv => if kv.1 = k then (k, v) else kv)) k' =
      lookupA l k' := by
  induction l with
  | nil => rfl
  | cons kv rest ih =>
    by_cases hk : kv.1 = k
    · have h1 : k ≠ k' := Ne.symm h
      have h2 : kv.1 ≠ k' := by rw [hk]; exact h1
      simp [hk, lookupA_cons, h1, h2, ih]
    · by_cases hk' : kv.1 = k'
      · simp [hk, hk', lookupA_cons, h]
      · simp [hk, hk', lookupA_cons, ih]

theorem lookupA_append_single_self {β : Type} (l : List (String × β))
    (k : String) (v : β) (h : ¬(l.find? (fun kv => kv.1 = k)).isSome) :
    lookupA (l ++ [(k, v)]) k = some v := by
  induction l with
  | nil => simp [lookupA, List.find?]
  | cons kv rest ih =>
    by_cases hk : kv.1 = k
    · simp [List.find?, hk] at h
    · have hrest : ¬(rest.find? (fun kv => kv.1 = k)).isSome := by
        simpa [List.find?, hk] using h
      simpa [hk, lookupA_cons] using ih hrest

theorem lookupA_append_single_ne {β : Type} (l : List (String × β))
    (k k' : String) (v : β) (h : k' ≠ k) :
    lookupA (l ++ [(k, v)]) k' = lookupA l k' := by
  induction l with
  | nil => simp [lookupA, List.find?, Ne.symm h]
  | cons kv rest ih =>
    by_cases hk' : kv.1 = k'
    · simp [hk', lookupA_cons]
    · simpa [hk', lookupA_cons] using ih

theorem lookupA_insertA {β : Type} (l : List (String × β)) (k : String)
    (v : β) : lookupA (insertA l k v) k = some v := by
  unfold insertA
  split
  case isTrue h => exact lookupA_map_replace_eq l k v h
  case isFalse h => exact lookupA_append_single_self l k v h

theorem lookupA_insertA_ne {β : Type} (l : List (String × β)) (k k' : String)
    (v : β) (h : k' ≠ k) : lookupA (insertA l k v) k' = lookupA l k' := by
  unfold insertA
  split
  case isTrue _ => exact lookupA_map_replace_ne l k k' v h
  case isFalse _ => exact lookupA_append_single_ne l k k' v h

theorem normComps_step (acc : List String) (c : String) :
    (if c = ".." then acc.dropLast else acc ++ [c]) =
      List.foldl (fun a x => if x = ".." then a.dropLast else a ++ [x])
        acc [c] := rfl

theorem mem_foldl_normStep (cs : List String) :
    ∀ acc x,
      x ∈ List.foldl (fun a c => if c = ".." then a.dropLast else a ++ [c])
        acc cs →
      x ∈ acc ∨ x ∈ cs := by
  induction cs with
  | nil => intro acc x h; exact Or.inl h
  | cons c rest ih =>
    intro acc x h
    simp only [List.foldl_cons] at h
    rcases ih _ x h with h1 | h1
    · by_cases hc : c = ".."
      · rw [if_pos hc] at h1
        exact Or.inl ((List.dropLast_sublist acc).subset h1)
      · rw [if_neg hc] at h1
        rcases List.mem_append.mp h1 with h2 | h2
        · exact Or.inl h2
        · have hx : x = c := List.mem_singleton.mp h2
          rw [hx]
          exact Or.inr (List.mem_cons_self c rest)
    · exact Or.inr (List.mem_cons_of_mem _ h1)

theorem not_parent_mem_foldl_normStep (cs : List String) :
    ∀ acc, ".." ∉ acc →
      ".." ∉ List.foldl (fun a c => if c = ".." then a.dropLast else a ++ [c])
        acc cs := by
  induction cs with
  | nil => intro acc h; exact h
  | cons c rest ih =>
    intro acc h
    simp only [List.foldl_cons]
    apply ih
    by_cases hc : c = ".."
    · rw [if_pos hc]
      exact fun hm => h ((List.dropLast_sublist acc).subset hm)
    · rw [if_neg hc]
      intro hm
      rcases List.mem_append.mp hm with h2 | h2
      · exact h h2
      · exact hc (Eq.symm (List.mem_singleton.mp h2))

theorem mem_normComps (cs : List String) (x : String)
    (h : x ∈ normComps cs) : x ∈ cs := by
  rcases mem_foldl_normStep cs [] x h with h1 | h1
  · simp at h1
  · exact h1

theorem parent_not_mem_normComps (cs : List String) :
    ".." ∉ normComps cs :=
  not_parent_mem_foldl_normStep cs [] (by simp)

theorem foldl_normStep_no_parent (cs : List String)
    (h : ∀ c ∈ cs, c ≠ "..") :
    ∀ acc, List.foldl (fun a c => if c = ".." then a.dropLast else a ++ [c])
      acc cs = acc ++ cs := by
  induction cs with
  | nil => intro acc; simp
  | cons c rest ih =>
    intro acc
    have hc : c ≠ ".." := h c (List.mem_cons_self c rest)
    simp only [List.foldl_cons, if_neg hc]
    rw [ih (fun x hx => h x (List.mem_cons_of_mem c hx))]
    simp

theorem normComps_no_parent (cs : List String) (h : ∀ c ∈ cs, c ≠ "..") :
    normComps cs = cs := by
  unfold normComps
  simpa using foldl_normStep_no_parent cs h []

theorem strByteLen_mkA (n : Nat) : strByteLen (mkA n) = n := by
  unfold strByteLen mkA
  have h1 : charUtf8Size ('a') = 1 := by decide
  simp [List.map_replicate, h1, List.sum_replicate]

theorem strByteLen_pos (s : String) (h : s ≠ "") : 0 < strByteLen s := by
  cases s with
  | mk data =>
    cases data with
    | nil => exact absurd rfl h
    | cons c rest =>
      unfold strByteLen
      have h1 : 1 ≤ charUtf8Size c := by
        unfold charUtf8Size
        repeat' split
        all_goals omega
      have h2 : (String.mk (c :: rest)).toList = c :: rest := rfl
      rw [h2, List.map_cons, List.sum_cons]
      omega

theorem char_roundtrip (b : Nat) (h : b < 256) :
    (Char.ofNat (b % 256)).toNat = b := by
  have hmod : b % 256 = b := Nat.mod_eq_of_lt h
  rw [hmod]
  have hval : b.isValidChar := Or.inl (by omega)
  simp [Char.ofNat, hval, Char.toNat, Char.ofNatAux, UInt32.toNat]

theorem utf8EncodeChar_ascii (b : Nat) (h : b < 128) :
    utf8EncodeChar (Char.ofNat (b % 256)) = [b] := by
  have hr : (Char.ofNat (b % 256)).toNat = b := char_roundtrip b (by omega)
  simp only [utf8EncodeChar, hr]
  rw [if_pos h]

theorem flatten_utf8_ascii (bytes : List Nat) (h : ∀ b ∈ bytes, b < 128) :
    (bytes.map (fun b => utf8EncodeChar (Char.ofNat (b % 256)))).flatten =
      bytes := by
  induction bytes with
  | nil => rfl
  | cons b rest ih =>
    simp only [List.map_cons, List.flatten_cons]
    rw [utf8EncodeChar_ascii b (h b (List.mem_cons_self b rest)),
      ih (fun x hx => h x (List.mem_cons_of_mem b hx))]
    rfl

theorem encode_decode_ascii (bytes : List Nat) (h : ∀ b ∈ bytes, b < 128) :
    encodeString (decodeBytes bytes) = bytes := by
  unfold encodeString decodeBytes
  have h2 : (String.mk (bytes.map (fun b => Char.ofNat (b % 256)))).toList
      = bytes.map (fun b => Char.ofNat (b % 256)) := rfl
  rw [h2, List.map_map]
  simpa [Function.comp_def] using flatten_utf8_ascii bytes h

theorem lookupA_insertA_cases {β : Type} (l : List (String × β))
    (k k' : String) (v : β) :
    lookupA (insertA l k v) k' =
      if k' = k then some v else lookupA l k' := by
  by_cases h : k' = k
  · rw [if_pos h, h]; exact lookupA_insertA l k v
  · rw [if_neg h]; exact lookupA_insertA_ne l k k' v h

theorem evictLoop_noop (cache : List (String × CacheEntry))
    (queue : List String) (cur len maxS : Nat)
    (h : u64add cur len ≤ maxS) :
    evictLoop cache queue cur len maxS = (cache, queue, cur) := by
  cases queue with
  | nil => rfl
  | cons p rest => unfold evictLoop; rw [if_pos h]

theorem cache_content_current (m : DocManager) (path content : String)
    (md : DocumentMetadata) :
    (cache_content m path content md).current_cache_size =
      (evictLoop m.cache m.cache_queue m.current_cache_size
        (strByteLen content) m.max_cache_size).2.2 := rfl

theorem cache_content_small (m : DocManager) (path content : String)
    (md : DocumentMetadata)
    (h : u64add m.current_cache_size (strByteLen content) ≤ m.max_cache_size) :
    cache_content m path content md =
      { m with
        cache := insertA m.cache path { content := content, metadata := md }
        cache_queue := m.cache_queue ++ [path] } := by
  unfold cache_content
  rw [evictLoop_noop _ _ _ _ _ h]

/-! ## Claim theorems -/

/-- C2, counterexample: the server does not adopt the client's version.
With a.txt open at version 0 and cached, a change_document call proposing
version 5 succeeds but both the returned and the stored version are 1,
not the proposed 5. -/
theorem change_document_not_adopt_counterexample :
    (change_document diskHello mC2 { uri := "/ws/a.txt", version := 5 }
        [{ value := "hello\n", added := false, removed := false }] 7).2 =
      Except.ok { uri := "/ws/a.txt", version := 1 } ∧
    lookupA (change_document diskHello mC2 { uri := "/ws/a.txt", version := 5 }
        [{ value := "hello\n", added := false, removed := false }] 7).1.document_states
        "/ws/a.txt" =
      some { is_open := true, version := 1, last_modification := 7,
             is_dirty := true } ∧
    (1 : Int) ≠ 5 := by
  refine ⟨by rfl, by rfl, by decide⟩

/-- C6: opening a file whose first 512 bytes contain a zero byte fails
with the binary-refusal error and inserts no cache entry, but — against
the claim — a DocumentState for the path IS created and left behind,
because open_file inserts the state before the file-type check. -/
theorem open_binary_file_leaves_state :
    (open_file diskBin emptyManager "/ws/b.bin").2 =
      Except.error DocError.cannotReadBinary ∧
    lookupA (open_file diskBin emptyManager "/ws/b.bin").1.document_states
        "/ws/b.bin" =
      some { is_open := true, version := 0, last_modification := 0,
             is_dirty := false } ∧
    (open_file diskBin emptyManager "/ws/b.bin").1.cache = [] := by
  refine ⟨by rfl, by rfl, by rfl⟩

/-- C7: a send_request whose reply never arrives fails with the timeout
error, but — against the claim — the one-shot slot registered under the
fresh id 0 is NOT removed on the timeout path: it is still pending
afterwards. (A delivered response, by contrast, removes the slot.) -/
theorem send_request_timeout_leaks_slot :
    (send_request initialLspState ReplyEvent.timeout).2 =
      Except.error LspError.timeout ∧
    (send_request initialLspState ReplyEvent.timeout).1.pending = [0] ∧
    (send_request initialLspState ReplyEvent.response).1.pending = [] := by
  refine ⟨by rfl, by rfl, by rfl⟩

/-- C8: a non-empty text in which every line terminator is CRLF is
classified LF, not CRLF: Rust str lines strips the carriage return
together with the newline, so no line ever ends with a carriage
return. -/
theorem detect_line_ending_crlf_text_is_lf :
    detect_line_ending "a\r\nb\r\n" = LineEnding.LF ∧
    LineEnding.LF ≠ LineEnding.CRLF := by
  refine ⟨by decide, by decide⟩

/-- C9: the first search ever issued, in the default Filename mode,
does NOT cold start: create_search keys initialization on a mode change
only, so with no prior search and an unchanged mode it neither restarts
the matcher nor indexes any workspace rows; it only sets the pattern
(with append false). -/
theorem create_search_first_filename_no_cold_start :
    (create_search initialSearchState "foo" false).2 =
      [SearchAction.reparse "foo" false] ∧
    SearchAction.restart ∉ (create_search initialSearchState "foo" false).2 ∧
    SearchAction.indexWorkspace SearchMode.Filename ∉
      (create_search initialSearchState "foo" false).2 ∧
    initialSearchState.last_query = none := by
  refine ⟨by decide, by decide, by decide, by decide⟩

/-- C3: the cache byte budget is violated. The eviction loop is driven by
the current_cache_size counter, which cache_content never increments, so
two 600000-byte insertions under the 1 MiB budget evict nothing and leave
1200000 bytes of cached content: the sum of cached content byte lengths
exceeds max_cache_size at the end of the second cache_content call. -/
theorem cache_budget_violated :
    cachedBytesTotal dmC3 = 1200000 ∧
    dmC3.max_cache_size = 1048576 ∧
    cachedBytesTotal dmC3 > dmC3.max_cache_size := by
  have e1 : strByteLen (mkA 600000) = 600000 := strByteLen_mkA _
  have hfit1 : u64add emptyManager.current_cache_size
      (strByteLen (mkA 600000)) ≤ emptyManager.max_cache_size := by
    rw [e1]; norm_num [u64add, U64MOD, emptyManager, CACHE_SIZE_LIMIT]
  have h1 := cache_content_small emptyManager "p1" (mkA 600000) mdEx hfit1
  have hins1 : insertA emptyManager.cache "p1"
      ({ content := mkA 600000, metadata := mdEx } : CacheEntry) =
      [("p1", ({ content := mkA 600000, metadata := mdEx } : CacheEntry))] :=
    rfl
  rw [hins1] at h1
  have hfit2 : u64add (cache_content emptyManager "p1" (mkA 600000)
      mdEx).current_cache_size (strByteLen (mkA 600000)) ≤
      (cache_content emptyManager "p1" (mkA 600000) mdEx).max_cache_size := by
    rw [h1, e1]; norm_num [u64add, U64MOD, emptyManager, CACHE_SIZE_LIMIT]
  have h2 := cache_content_small _ "p2" (mkA 600000) mdEx hfit2
  have hins2 : insertA
      [("p1", ({ content := mkA 600000, metadata := mdEx } : CacheEntry))]
      "p2" ({ content := mkA 600000, metadata := mdEx } : CacheEntry) =
      [("p1", ({ content := mkA 600000, metadata := mdEx } : CacheEntry)),
       ("p2", ({ content := mkA 600000, metadata := mdEx } : CacheEntry))] := by
    simp [insertA, List.find?]
  have hdm : dmC3 = { emptyManager with
      cache := [("p1", ({ content := mkA 600000, metadata := mdEx } : CacheEntry)),
                ("p2", ({ content := mkA 600000, metadata := mdEx } : CacheEntry))]
      cache_queue := ["p1", "p2"] } := by
    unfold dmC3
    rw [h2, h1]
    simp only [emptyManager, List.nil_append]
    rw [hins2]
    rfl
  rw [hdm]
  refine ⟨?_, rfl, ?_⟩
  · simp [cachedBytesTotal, e1]
  · simp [cachedBytesTotal, e1, emptyManager, CACHE_SIZE_LIMIT]

/-- C4, counterexample to the universally quantified clause: it is not
true that after every sequence of cache_content calls the counter is
still 0. When an over-budget content arrives, the eviction loop runs with
the counter still at 0 and its own u64 decrement wraps: after caching a
1-byte entry and then a 1048577-byte entry the counter is 2^64 - 1. -/
theorem cache_counter_wraps_in_eviction :
    dmC4.current_cache_size = U64MOD - 1 ∧
    dmC4.current_cache_size ≠ 0 := by
  have e1 : strByteLen (mkA 1) = 1 := strByteLen_mkA _
  have e2 : strByteLen (mkA 1048577) = 1048577 := strByteLen_mkA _
  have hfit1 : u64add emptyManager.current_cache_size
      (strByteLen (mkA 1)) ≤ emptyManager.max_cache_size := by
    rw [e1]; norm_num [u64add, U64MOD, emptyManager, CACHE_SIZE_LIMIT]
  have h1 := cache_content_small emptyManager "p1" (mkA 1) mdEx hfit1
  have hins1 : insertA emptyManager.cache "p1"
      ({ content := mkA 1, metadata := mdEx } : CacheEntry) =
      [("p1", ({ content := mkA 1, metadata := mdEx } : CacheEntry))] := rfl
  rw [hins1] at h1
  have hev : evictLoop
      [("p1", ({ content := mkA 1, metadata := mdEx } : CacheEntry))]
      ["p1"] 0 (strByteLen (mkA 1048577)) CACHE_SIZE_LIMIT =
      (removeA [("p1", ({ content := mkA 1, metadata := mdEx } : CacheEntry))]
        "p1", [], U64MOD - 1) := by
    unfold evictLoop
    have hc : ¬(u64add 0 (strByteLen (mkA 1048577)) ≤ CACHE_SIZE_LIMIT) := by
      rw [e2]; norm_num [u64add, U64MOD, CACHE_SIZE_LIMIT]
    rw [if_neg hc]
    have hl : lookupA
        [("p1", ({ content := mkA 1, metadata := mdEx } : CacheEntry))] "p1" =
        some ({ content := mkA 1, metadata := mdEx } : CacheEntry) := by
      simp [lookupA, List.find?]
    rw [hl]
    unfold evictLoop
    rw [e1]
    norm_num [u64sub, U64MOD]
  have hdm : dmC4.current_cache_size = U64MOD - 1 := by
    unfold dmC4
    rw [h1, cache_content_current]
    simp only [emptyManager, List.nil_append]
    rw [hev]
  refine ⟨hdm, by rw [hdm]; norm_num [U64MOD]⟩

/-- C4, amended: cache_content indeed never increments the counter, so
for every sequence of cache_content calls whose contents each fit the
cache budget (so that the eviction loop never runs) the counter stays 0;
consequently a single invalidate_cache_for_file on a cached entry with
non-empty content performs a u64 subtraction counter minus byte-length
that underflows (panic in debug builds) and wraps the counter to
2^64 minus the byte length (release builds). -/
theorem cache_counter_zero_then_invalidate_underflows
    (calls : List (String × String × DocumentMetadata))
    (hfit : ∀ c ∈ calls, strByteLen c.2.1 ≤ CACHE_SIZE_LIMIT) :
    (foldCache calls emptyManager).current_cache_size = 0 ∧
    ∀ path e, lookupA (foldCache calls emptyManager).cache path = some e →
      e.content ≠ "" →
      u64SubUnderflows (foldCache calls emptyManager).current_cache_size
        (strByteLen e.content) ∧
      (invalidate_cache_for_file (foldCache calls emptyManager)
        path).current_cache_size = U64MOD - strByteLen e.content := by
  have main : ∀ (cs : List (String × String × DocumentMetadata))
      (m : DocManager), (∀ c ∈ cs, strByteLen c.2.1 ≤ CACHE_SIZE_LIMIT) →
      m.current_cache_size = 0 → m.max_cache_size = CACHE_SIZE_LIMIT →
      (∀ p e, lookupA m.cache p = some e →
        strByteLen e.content ≤ CACHE_SIZE_LIMIT) →
      (foldCache cs m).current_cache_size = 0 ∧
      (foldCache cs m).max_cache_size = CACHE_SIZE_LIMIT ∧
      (∀ p e, lookupA (foldCache cs m).cache p = some e →
        strByteLen e.content ≤ CACHE_SIZE_LIMIT) := by
    intro cs
    induction cs with
    | nil => intro m _ h0 hmax hb; exact ⟨h0, hmax, hb⟩
    | cons c rest ih =>
      intro m hfit h0 hmax hb
      have hlen : strByteLen c.2.1 ≤ CACHE_SIZE_LIMIT :=
        hfit c (List.mem_cons_self c rest)
      have hsmall : u64add m.current_cache_size (strByteLen c.2.1) ≤
          m.max_cache_size := by
        rw [h0, hmax]
        have hlt : (0 + strByteLen c.2.1) % U64MOD = strByteLen c.2.1 := by
          rw [Nat.zero_add]
          apply Nat.mod_eq_of_lt
          have : CACHE_SIZE_LIMIT < U64MOD := by
            norm_num [CACHE_SIZE_LIMIT, U64MOD]
          omega
        rw [u64add, hlt]
        exact hlen
      have hstep := cache_content_small m c.1 c.2.1 c.2.2 hsmall
      have hrun : foldCache (c :: rest) m =
          foldCache rest (cache_content m c.1 c.2.1 c.2.2) := rfl
      rw [hrun, hstep]
      refine ih _ (fun x hx => hfit x (List.mem_cons_of_mem c hx)) ?_ ?_ ?_
      · simpa using h0
      · simpa using hmax
      · intro p e hp
        simp only [] at hp
        rw [lookupA_insertA_cases] at hp
        by_cases hpc : p = c.1
        · rw [if_pos hpc] at hp
          have he := Option.some.inj hp
          rw [← he]
          exact hlen
        · rw [if_neg hpc] at hp
          exact hb p e hp
  obtain ⟨h0, hmax, hb⟩ := main calls emptyManager hfit rfl rfl
    (by intro p e hp; simp [emptyManager, lookupA] at hp)
  refine ⟨h0, ?_⟩
  intro path e hp hne
  have hlen : strByteLen e.content ≤ CACHE_SIZE_LIMIT := hb path e hp
  have hpos : 0 < strByteLen e.content := strByteLen_pos e.content hne
  have hlt : strByteLen e.content < U64MOD := by
    have : CACHE_SIZE_LIMIT < U64MOD := by norm_num [CACHE_SIZE_LIMIT, U64MOD]
    omega
  have hmod : strByteLen e.content % U64MOD = strByteLen e.content :=
    Nat.mod_eq_of_lt hlt
  constructor
  · unfold u64SubUnderflows
    rw [h0, hmod]
    simpa using hpos
  · unfold invalidate_cache_for_file
    rw [hp]
    have : u64sub (foldCache calls emptyManager).current_cache_size
        (strByteLen e.content) = U64MOD - strByteLen e.content := by
      rw [h0, u64sub, hmod, Nat.zero_add]
      apply Nat.mod_eq_of_lt
      omega
    simpa using this

/-- C4, witness at a concrete call list: one cached 3-byte entry; the
counter is 0 afterwards and invalidating the entry wraps the counter to
2^64 - 3. -/
theorem cache_counter_zero_witness :
    (∀ c ∈ [("p1", "abc", mdEx)], strByteLen c.2.1 ≤ CACHE_SIZE_LIMIT) ∧
    (foldCache [("p1", "abc", mdEx)] emptyManager).current_cache_size = 0 ∧
    u64SubUnderflows
      (foldCache [("p1", "abc", mdEx)] emptyManager).current_cache_size
      (strByteLen "abc") ∧
    (invalidate_cache_for_file (foldCache [("p1", "abc", mdEx)] emptyManager)
      "p1").current_cache_size = U64MOD - strByteLen "abc" := by
  have hfit : ∀ c ∈ [("p1", "abc", mdEx)],
      strByteLen c.2.1 ≤ CACHE_SIZE_LIMIT := by decide
  obtain ⟨h0, hrest⟩ :=
    cache_counter_zero_then_invalidate_underflows [("p1", "abc", mdEx)] hfit
  have hlook : lookupA (foldCache [("p1", "abc", mdEx)]
      emptyManager).cache "p1" = some { content := "abc", metadata := mdEx } :=
    by decide
  obtain ⟨hu, hw⟩ := hrest "p1" { content := "abc", metadata := mdEx } hlook
    (by decide)
  exact ⟨hfit, h0, hu, hw⟩

/-- C2, amended: on every successful change_document the server does not
adopt the client's proposed version; it increments its stored version by
one. The proposed version is only required to exceed the stored one, and
both the returned VersionedDocument and the stored DocumentState carry
stored-version-plus-one (equal to the proposed version exactly when the
client proposed stored-version-plus-one). -/
theorem change_document_version_succ (disk : Disk) (m : DocManager)
    (doc : VersionedDocument) (changes : List DiffChange) (now : Nat)
    (m1 : DocManager) (ret : VersionedDocument)
    (h : change_document disk m doc changes now = (m1, Except.ok ret)) :
    ∃ st, lookupA m.document_states doc.uri = some st ∧
      st.version < doc.version ∧
      ret = { uri := doc.uri, version := st.version + 1 } ∧
      lookupA m1.document_states doc.uri = some
        { st with version := st.version + 1, is_dirty := true,
                  last_modification := now } := by
  unfold change_document at h
  split at h
  next =>
    injection h with _ h2
    exact Except.noConfusion h2
  next st hst =>
    split at h
    next hv =>
      injection h with _ h2
      exact Except.noConfusion h2
    next hv =>
      split at h
      next e hcc =>
        injection h with _ h2
        exact Except.noConfusion h2
      next current_content hcc =>
        split at h
        next e hac =>
          injection h with _ h2
          exact Except.noConfusion h2
        next result_chars hac =>
          split at h
          next hdf =>
            injection h with _ h2
            exact Except.noConfusion h2
          next f hdf =>
            injection h with hm1 hret
            injection hret with hret2
            refine ⟨st, hst, lt_of_not_ge hv, hret2.symm, ?_⟩
            rw [← hm1]
            exact lookupA_insertA _ _ _

/-- C2, witness: the amended statement evaluated on the concrete open
document of the counterexample run: stored version 0, proposed version 5,
returned and stored version 1. -/
theorem change_document_version_succ_witness :
    ∃ st : DocumentState,
      lookupA mC2.document_states "/ws/a.txt" = some st ∧
      st.version < (5 : Int) ∧
      ({ uri := "/ws/a.txt", version := 1 } : VersionedDocument) =
        { uri := "/ws/a.txt", version := st.version + 1 } ∧
      lookupA (change_document diskHello mC2 { uri := "/ws/a.txt", version := 5 }
          [{ value := "hello\n", added := false, removed := false }]
          7).1.document_states "/ws/a.txt" =
        some { st with version := st.version + 1, is_dirty := true,
                       last_modification := 7 } := by
  have h : change_document diskHello mC2 { uri := "/ws/a.txt", version := 5 }
      [{ value := "hello\n", added := false, removed := false }] 7 =
      ((change_document diskHello mC2 { uri := "/ws/a.txt", version := 5 }
        [{ value := "hello\n", added := false, removed := false }] 7).1,
       Except.ok { uri := "/ws/a.txt", version := 1 }) := rfl
  obtain ⟨st, h1, h2, h3, h4⟩ :=
    change_document_version_succ diskHello mC2
      { uri := "/ws/a.txt", version := 5 }
      [{ value := "hello\n", added := false, removed := false }] 7 _ _ h
  exact ⟨st, h1, h2, h3, h4⟩

theorem lookupA_map_update_ne {β : Type} (l : List (String × β)) (u : β → β)
    (k q : String) (h : q ≠ k) :
    lookupA (l.map (fun kv => if kv.1 = k then (kv.1, u kv.2) else kv)) q =
      lookupA l q := by
  induction l with
  | nil => rfl
  | cons kv rest ih =>
    by_cases hk : kv.1 = k
    · have hq : kv.1 ≠ q := by rw [hk]; exact Ne.symm h
      simp [hk, lookupA_cons, hq, Ne.symm h, ih]
    · by_cases hq : kv.1 = q
      · simp [hk, hq, lookupA_cons, h]
      · simp [hk, hq, lookupA_cons, ih]

theorem lookupA_map_update_self {β : Type} (l : List (String × β)) (u : β → β)
    (k : String) :
    lookupA (l.map (fun kv => if kv.1 = k then (kv.1, u kv.2) else kv)) k =
      (lookupA l k).map u := by
  induction l with
  | nil => rfl
  | cons kv rest ih =>
    by_cases hk : kv.1 = k
    · simp [hk, lookupA_cons]
    · simp [hk, lookupA_cons, ih]

theorem lookupA_diskWrite_same (disk : Disk) (path : String) (f : DiskFile)
    (h : lookupA disk path = some f) :
    ∀ q, lookupA (diskWrite disk path f.bytes) q = lookupA disk q := by
  intro q
  unfold diskWrite
  have hs : (disk.find? (fun kv => kv.1 = path)).isSome := by
    unfold lookupA at h
    cases hf : disk.find? (fun kv => kv.1 = path) with
    | none => rw [hf] at h; exact Option.noConfusion h
    | some kv => rfl
  rw [if_pos hs]
  by_cases hq : q = path
  · rw [hq]
    rw [lookupA_map_update_self disk (diskSetBytes f.bytes) path]
    rw [h]
    rfl
  · exact lookupA_map_update_ne disk (diskSetBytes f.bytes) path q hq

theorem lookupA_cache_content (m : DocManager) (path content : String)
    (md : DocumentMetadata) :
    lookupA (cache_content m path content md).cache path =
      some { content := content, metadata := md } := by
  unfold cache_content
  exact lookupA_insertA _ _ _

theorem get_document_content_fresh (disk : Disk) (m : DocManager)
    (path : String) (f : DiskFile)
    (hc : lookupA m.cache path = none)
    (hdf : lookupA disk path = some f)
    (hsize : f.bytes.length ≤ CACHE_SIZE_LIMIT)
    (hft : detect_file_type f = FileType.Text) :
    get_document_content disk m path =
      (cache_content m path (decodeBytes f.bytes)
        (mkMetadata f FileType.Text (decodeBytes f.bytes)),
       Except.ok (decodeBytes f.bytes)) := by
  unfold get_document_content
  simp only [hc, hdf, hft]
  have hnot : ¬(f.bytes.length > MAX_FILE_SIZE) := by
    have hle : CACHE_SIZE_LIMIT ≤ MAX_FILE_SIZE := by
      norm_num [CACHE_SIZE_LIMIT, MAX_FILE_SIZE]
    omega
  rw [if_neg hnot, if_pos hsize]

theorem open_file_fresh (disk : Disk) (m : DocManager) (path : String)
    (f : DiskFile)
    (hst : lookupA m.document_states path = none)
    (hc : lookupA m.cache path = none)
    (hdf : lookupA disk path = some f)
    (hsize : f.bytes.length ≤ CACHE_SIZE_LIMIT)
    (hft : detect_file_type f = FileType.Text) :
    open_file disk m path =
      (cache_content
        { m with document_states := insertA m.document_states path freshDocState }
        path (decodeBytes f.bytes)
        (mkMetadata f FileType.Text (decodeBytes f.bytes)),
       Except.ok (decodeBytes f.bytes,
         mkMetadata f FileType.Text (decodeBytes f.bytes), 0)) := by
  unfold open_file
  simp only [hst, hdf]
  have hc1 : lookupA
      ({ m with document_states := insertA m.document_states path freshDocState } :
        DocManager).cache path = none := hc
  rw [get_document_content_fresh disk _ path f hc1 hdf hsize hft]
  simp only [lookupA_cache_content]

theorem save_document_ok (disk : Disk) (m : DocManager)
    (doc : VersionedDocument) (now : Nat) (st : DocumentState)
    (entry : CacheEntry)
    (hst : lookupA m.document_states doc.uri = some st)
    (hv : ¬st.version ≥ doc.version)
    (hc : lookupA m.cache doc.uri = some entry) :
    save_document disk m doc now =
      (diskWrite disk doc.uri (encodeString entry.content),
       { m with document_states := (insertA m.document_states doc.uri
          { st with is_dirty := false, last_modification := now }) },
       Except.ok { uri := doc.uri, version := st.version }) := by
  unfold save_document
  simp only [hst, hc]
  rw [if_neg hv]

/-- C5, counterexample: opening a.txt returns version 0, and the
immediately following save_document at version 1 succeeds but does NOT
increment the version: it returns version 0, not 1. Moreover the save is
not always a byte-level no-op: for e.txt, whose single-byte content 0xE9
0x0A decodes to a two-character text, save writes the text's UTF-8 bytes
0xC3 0xA9 0x0A and the on-disk bytes change. -/
theorem save_does_not_increment_version :
    (save_document diskHello
        (open_file diskHello emptyManager "/ws/a.txt").1
        { uri := "/ws/a.txt", version := 1 } 9).2.2 =
      Except.ok { uri := "/ws/a.txt", version := 0 } ∧
    ({ uri := "/ws/a.txt", version := 0 } : VersionedDocument) ≠
      { uri := "/ws/a.txt", version := 0 + 1 } ∧
    (save_document diskLatin
        (open_file diskLatin emptyManager "/ws/e.txt").1
        { uri := "/ws/e.txt", version := 1 } 9).2.2 =
      Except.ok { uri := "/ws/e.txt", version := 0 } ∧
    lookupA (save_document diskLatin
        (open_file diskLatin emptyManager "/ws/e.txt").1
        { uri := "/ws/e.txt", version := 1 } 9).1 "/ws/e.txt" =
      some { bytes := [195, 169, 10], isSymlink := false,
             readonly := false } ∧
    [195, 169, 10] ≠ [233, 10] := by
  exact ⟨rfl, by decide, rfl, by decide, by decide⟩

/-- C5, amended: a fresh open_file of an ASCII text file (every byte
below 0x80, so the decoded text re-encodes as UTF-8 to the same bytes)
that fits the cache limit returns version 0, and the immediately
following save_document proposing version 1 succeeds and is a no-op on
disk bytes — but the version is NOT incremented: both the version
returned by save_document and the stored version remain 0. (For
non-ASCII single-byte files the save transcodes to UTF-8 and the disk
bytes change, as the counterexample also shows.) -/
theorem open_then_save_noop (disk : Disk) (m : DocManager) (path : String)
    (now : Nat) (f : DiskFile)
    (hst : lookupA m.document_states path = none)
    (hc : lookupA m.cache path = none)
    (hdf : lookupA disk path = some f)
    (hsize : f.bytes.length ≤ CACHE_SIZE_LIMIT)
    (hft : detect_file_type f = FileType.Text)
    (hbytes : ∀ b ∈ f.bytes, b < 128) :
    ∃ m1 md m2 disk1,
      open_file disk m path = (m1, Except.ok (decodeBytes f.bytes, md, 0)) ∧
      save_document disk m1 { uri := path, version := 0 + 1 } now =
        (disk1, m2, Except.ok { uri := path, version := 0 }) ∧
      (∀ q, lookupA disk1 q = lookupA disk q) ∧
      lookupA m2.document_states path =
        some { is_open := true, version := 0, last_modification := now,
               is_dirty := false } := by
  have hopen := open_file_fresh disk m path f hst hc hdf hsize hft
  set content : String := decodeBytes f.bytes with hcontent
  set md : DocumentMetadata := mkMetadata f FileType.Text content with hmd
  set mB : DocManager :=
    { m with document_states := insertA m.document_states path freshDocState }
    with hmB
  set mA : DocManager := cache_content mB path content md with hmA
  have hstA : lookupA mA.document_states path = some freshDocState := by
    have hpres : mA.document_states = mB.document_states := rfl
    rw [hpres, hmB]
    exact lookupA_insertA _ _ _
  have hvA : ¬(freshDocState.version ≥
      ({ uri := path, version := 0 + 1 } : VersionedDocument).version) := by
    show ¬((0 : Int) ≥ (0 + 1 : Int))
    decide
  have hcA : lookupA mA.cache path =
      some { content := content, metadata := md } :=
    lookupA_cache_content mB path content md
  have hsave := save_document_ok disk mA { uri := path, version := 0 + 1 }
    now freshDocState { content := content, metadata := md } hstA hvA hcA
  refine ⟨mA, md, _, _, hopen, hsave, ?_, ?_⟩
  · have henc : encodeString content = f.bytes :=
      encode_decode_ascii f.bytes hbytes
    rw [henc]
    exact lookupA_diskWrite_same disk path f hdf
  · exact lookupA_insertA _ _ _

/-- C5, witness: the amended statement at the one-file ASCII workspace:
open a.txt at version 0, save at version 1, disk unchanged, version
still 0. -/
theorem open_then_save_noop_witness :
    (∀ b ∈ [104, 101, 108, 108, 111, 10], b < 128) ∧
    ∃ m1 md m2 disk1,
      open_file diskHello emptyManager "/ws/a.txt" =
        (m1, Except.ok (decodeBytes [104, 101, 108, 108, 111, 10], md, 0)) ∧
      save_document diskHello m1 { uri := "/ws/a.txt", version := 0 + 1 } 9 =
        (disk1, m2, Except.ok { uri := "/ws/a.txt", version := 0 }) ∧
      (∀ q, lookupA disk1 q = lookupA diskHello q) ∧
      lookupA m2.document_states "/ws/a.txt" =
        some { is_open := true, version := 0, last_modification := 9,
               is_dirty := false } := by
  refine ⟨by decide, ?_⟩
  have h := open_then_save_noop diskHello emptyManager "/ws/a.txt" 9
    { bytes := [104, 101, 108, 108, 111, 10], isSymlink := false,
      readonly := false }
    (by decide) (by decide) (by decide) (by decide) (by decide) (by decide)
  exact h

theorem parsePath_clean (s : String) :
    ∀ c ∈ (parsePath s).comps, c ≠ "" ∧ c ≠ "." := by
  intro c hc
  unfold parsePath at hc
  simp only [List.mem_filter, decide_eq_true_eq] at hc
  exact hc.2

theorem join_comps_clean (root : Pathbuf) (rel : String) (j : Pathbuf)
    (hroot : ∀ c ∈ root.comps, c ≠ "" ∧ c ≠ "." ∧ c ≠ "..")
    (hj : join_workspace_path root rel = Except.ok j) :
    ∀ c ∈ j.comps, c ≠ "" ∧ c ≠ "." := by
  unfold join_workspace_path at hj
  split at hj
  next =>
    injection hj with hj1
    intro c hc
    rw [← hj1] at hc
    exact ⟨(hroot c hc).1, (hroot c hc).2.1⟩
  next =>
    split at hj
    next =>
      injection hj with hj1
      intro c hc
      rw [← hj1] at hc
      exact parsePath_clean rel c hc
    next =>
      split at hj
      next hsw =>
        injection hj with hj1
        intro c hc
        rw [← hj1] at hc
        unfold pathJoin at hc
        split at hc
        next => exact parsePath_clean rel c hc
        next =>
          simp only [List.mem_append] at hc
          rcases hc with hc | hc
          · exact ⟨(hroot c hc).1, (hroot c hc).2.1⟩
          · exact parsePath_clean rel c hc
      next hsw => exact Except.noConfusion hj

theorem isPrefixOf_cons_false (a b : Char) (as bs : List Char) (h : a ≠ b) :
    (a :: as).isPrefixOf (b :: bs) = false := by
  simp [List.isPrefixOf, h]

/-- C1: the workspace jail. First conjunct: every path string the jail
accepts comes back canonical (absolute, no empty, dot or dot-dot
segments) and a component-wise descendant of the workspace root, because
validate_workspace_path runs on the canonicalized result. Second
conjunct: the escaping input dot-dot-slash-outside is rejected with
OutsideWorkspace (for any canonical root not itself named outside, where
the input would resolve back inside). -/
theorem get_full_path_jail (root : Pathbuf)
    (habs : root.abs = true)
    (hne : root.comps ≠ [])
    (hclean : ∀ c ∈ root.comps, c ≠ "" ∧ c ≠ "." ∧ c ≠ "..") :
    (∀ rel p, get_full_path root rel = Except.ok p →
      isCanonicalPath p ∧ pathStartsWith p root = true) ∧
    (root.comps.getLast? ≠ some "outside" →
      get_full_path root "../outside" =
        Except.error PathError.outsideWorkspace) := by
  constructor
  · intro rel p h
    unfold get_full_path at h
    cases hj : join_workspace_path root rel with
    | error e => rw [hj] at h; exact Except.noConfusion h
    | ok j =>
      simp only [hj] at h
      cases hv : validate_workspace_path root (canonicalizePath j) with
      | error e => simp only [hv] at h; exact Except.noConfusion h
      | ok u =>
        simp only [hv] at h
        injection h with h1
        have hsw : pathStartsWith (canonicalizePath j) root = true := by
          unfold validate_workspace_path at hv
          by_cases hb : pathStartsWith (canonicalizePath j) root = true
          · exact hb
          · rw [if_neg hb] at hv; exact Except.noConfusion hv
        rw [← h1]
        refine ⟨⟨rfl, ?_⟩, hsw⟩
        intro c hc
        have hcj : c ∈ j.comps := mem_normComps _ _ hc
        have hcc := join_comps_clean root rel j hclean hj c hcj
        have hnp : c ≠ ".." := by
          intro hp
          rw [hp] at hc
          exact parent_not_mem_normComps _ hc
        exact ⟨hcc.1, hcc.2, hnp⟩
  · intro hlast
    have hrel : ¬(("../outside" : String) = "") := by decide
    have hchars : pathChars root =
        '/' :: (String.intercalate "/" root.comps).toList := by
      unfold pathChars
      rw [habs]
      rfl
    have htl : ("../outside" : String).toList =
        '.' :: ("./outside" : String).toList := rfl
    have hpfx : (pathChars root).isPrefixOf
        ("../outside" : String).toList = false := by
      rw [hchars, htl]
      exact isPrefixOf_cons_false '/' '.' _ _ (by decide)
    have hc2 : ¬((pathChars root).isPrefixOf
        ("../outside" : String).toList = true) := by
      rw [hpfx]
      exact Bool.false_ne_true
    have hparse : parsePath "../outside" =
        { abs := false, comps := ["..", "outside"] } := by rfl
    have hpj : pathJoin root { abs := false, comps := ["..", "outside"] } =
        { abs := root.abs, comps := root.comps ++ ["..", "outside"] } := rfl
    have hfull : join_workspace_path root "../outside" =
        Except.ok { abs := root.abs,
                    comps := root.comps ++ ["..", "outside"] } := by
      unfold join_workspace_path
      rw [if_neg hrel, if_neg hc2, hparse]
      simp only [hpj]
      have hsw : pathStartsWith
          { abs := root.abs, comps := root.comps ++ ["..", "outside"] }
          root = true := by
        unfold pathStartsWith
        simp [List.isPrefixOf_iff_prefix, List.prefix_append]
      rw [if_pos hsw]
    have hnorm : normComps (root.comps ++ ["..", "outside"]) =
        root.comps.dropLast ++ ["outside"] := by
      unfold normComps
      rw [List.foldl_append]
      have h1 : List.foldl
          (fun acc c => if c = ".." then acc.dropLast else acc ++ [c])
          [] root.comps = root.comps := by
        have := foldl_normStep_no_parent root.comps
          (fun c hc => (hclean c hc).2.2) []
        simpa using this
      rw [h1]
      simp
    have hcanon : canonicalizePath
        { abs := root.abs, comps := root.comps ++ ["..", "outside"] } =
        { abs := true, comps := root.comps.dropLast ++ ["outside"] } := by
      unfold canonicalizePath
      simp only [hnorm]
    have hval : pathStartsWith
        { abs := true, comps := root.comps.dropLast ++ ["outside"] } root =
        false := by
      unfold pathStartsWith
      cases hb : root.comps.isPrefixOf (root.comps.dropLast ++ ["outside"]) with
      | false => simp [hb]
      | true =>
        exfalso
        have hpre : root.comps <+: (root.comps.dropLast ++ ["outside"]) :=
          (List.isPrefixOf_iff_prefix).mp hb
        have hpos : 0 < root.comps.length := List.length_pos.mpr hne
        have hlen : root.comps.length =
            (root.comps.dropLast ++ ["outside"]).length := by
          simp only [List.length_append, List.length_dropLast,
            List.length_singleton]
          omega
        have heq := List.IsPrefix.eq_of_length hpre hlen
        apply hlast
        rw [heq]
        simp [List.getLast?_concat]
    unfold get_full_path
    simp only [hfull, hcanon]
    unfold validate_workspace_path
    rw [if_neg (by rw [hval]; exact Bool.false_ne_true)]

/-- C1, witness: at the concrete canonical root home-user-ws, the
escaping input is rejected with OutsideWorkspace, and an accepted input
(a.txt) yields a canonical descendant of the root. -/
theorem get_full_path_jail_witness :
    rootEx.abs = true ∧ rootEx.comps ≠ [] ∧
    (∀ c ∈ rootEx.comps, c ≠ "" ∧ c ≠ "." ∧ c ≠ "..") ∧
    rootEx.comps.getLast? ≠ some "outside" ∧
    get_full_path rootEx "../outside" =
      Except.error PathError.outsideWorkspace ∧
    (isCanonicalPath
        { abs := true, comps := ["home", "user", "ws", "a.txt"] } ∧
      pathStartsWith
        { abs := true, comps := ["home", "user", "ws", "a.txt"] } rootEx =
        true) := by
  have h := get_full_path_jail rootEx (by decide) (by decide) (by decide)
  have hok : get_full_path rootEx "a.txt" =
      Except.ok { abs := true, comps := ["home", "user", "ws", "a.txt"] } :=
    by rfl
  exact ⟨by decide, by decide, by decide, by decide, h.2 (by decide),
    h.1 "a.txt" _ hok⟩

theorem add_event_emit_case (b : EventBatcher) (e : FileEvent) (now : Nat)
    (h : should_emit { b with events := b.events ++ [e] } now = true) :
    add_event b e now =
      ({ b with events := [], last_emit := now }, some (b.events ++ [e])) := by
  simp [add_event, emit_batch, h]

theorem add_event_noemit_case (b : EventBatcher) (e : FileEvent) (now : Nat)
    (h : should_emit { b with events := b.events ++ [e] } now = false) :
    add_event b e now = ({ b with events := b.events ++ [e] }, none) := by
  simp [add_event, h]

theorem timeout_tick_emit_case (b : EventBatcher) (now : Nat)
    (hne : b.events ≠ []) (h : b.batch_timeout ≤ now - b.last_emit) :
    timeout_tick b now =
      ({ b with events := [], last_emit := now }, some b.events) := by
  simp [timeout_tick, emit_batch, hne, h, List.isEmpty_iff]

theorem timeout_tick_noemit_case (b : EventBatcher) (now : Nat)
    (h : ¬(b.events ≠ [] ∧ b.batch_timeout ≤ now - b.last_emit)) :
    timeout_tick b now = (b, none) := by
  unfold timeout_tick
  rw [if_neg]
  intro hcond
  simp only [Bool.and_eq_true, Bool.not_eq_true', decide_eq_true_eq,
    List.isEmpty_eq_false] at hcond
  exact h ⟨hcond.1, hcond.2⟩

theorem add_event_emits_iff (b : EventBatcher) (e : FileEvent) (now : Nat) :
    ((add_event b e now).2 ≠ none) ↔
      (b.events.length + 1 ≥ b.batch_size ∨
        now - b.last_emit ≥ b.batch_timeout) := by
  cases hcond : should_emit { b with events := b.events ++ [e] } now with
  | true =>
    rw [add_event_emit_case b e now hcond]
    simp only [ne_eq, reduceCtorEq, not_false_eq_true, true_iff]
    unfold should_emit at hcond
    simpa [List.length_append] using hcond
  | false =>
    rw [add_event_noemit_case b e now hcond]
    simp only [ne_eq, not_true_eq_false, false_iff]
    unfold should_emit at hcond
    simp only [Bool.or_eq_false_iff, decide_eq_false_iff_not,
      List.length_append, List.length_singleton] at hcond
    intro hcontra
    rcases hcontra with hcontra | hcontra
    · exact hcond.1 (by simpa using hcontra)
    · exact hcond.2 hcontra

theorem timeout_tick_emits_iff (b : EventBatcher) (now : Nat) :
    ((timeout_tick b now).2 ≠ none) ↔
      (b.events ≠ [] ∧ now - b.last_emit ≥ b.batch_timeout) := by
  by_cases hcond : b.events ≠ [] ∧ b.batch_timeout ≤ now - b.last_emit
  · rw [timeout_tick_emit_case b now hcond.1 hcond.2]
    simp only [ne_eq, reduceCtorEq, not_false_eq_true, true_iff]
    exact hcond
  · rw [timeout_tick_noemit_case b now hcond]
    simp only [ne_eq, not_true_eq_false, false_iff]
    exact hcond

theorem batchStep_facts (b : EventBatcher) (op : BatchOp)
    (hinv : b.events.length < b.batch_size) :
    (batchStep b op).1.batch_size = b.batch_size ∧
    (batchStep b op).1.events.length < b.batch_size ∧
    (∀ batch, (batchStep b op).2 = some batch →
      batch ≠ [] ∧ batch.length ≤ b.batch_size) ∧
    ((match (batchStep b op).2 with
      | some batch => batch
      | none => []) ++ (batchStep b op).1.events =
        b.events ++ addedEvents [op]) := by
  cases op with
  | add e now =>
    have hstep : batchStep b (BatchOp.add e now) = add_event b e now := rfl
    rw [hstep]
    cases hcond : should_emit { b with events := b.events ++ [e] } now with
    | true =>
      rw [add_event_emit_case b e now hcond]
      refine ⟨rfl, by simpa using Nat.lt_of_le_of_lt (Nat.zero_le _) hinv, ?_,
        by simp [addedEvents]⟩
      intro batch hbatch
      have hb : batch = b.events ++ [e] := (Option.some.inj hbatch).symm
      rw [hb]
      refine ⟨by simp, ?_⟩
      simp only [List.length_append, List.length_singleton]
      omega
    | false =>
      rw [add_event_noemit_case b e now hcond]
      unfold should_emit at hcond
      simp only [Bool.or_eq_false_iff, decide_eq_false_iff_not,
        List.length_append, List.length_singleton] at hcond
      refine ⟨rfl, ?_, ?_, by simp [addedEvents]⟩
      · simp only [List.length_append, List.length_singleton]
        have := hcond.1
        omega
      · intro batch hbatch
        exact Option.noConfusion hbatch
  | tick now =>
    have hstep : batchStep b (BatchOp.tick now) = timeout_tick b now := rfl
    rw [hstep]
    by_cases hcond : b.events ≠ [] ∧ b.batch_timeout ≤ now - b.last_emit
    · rw [timeout_tick_emit_case b now hcond.1 hcond.2]
      refine ⟨rfl, by simpa using Nat.lt_of_le_of_lt (Nat.zero_le _) hinv, ?_,
        by simp [addedEvents]⟩
      intro batch hbatch
      have hb : batch = b.events := (Option.some.inj hbatch).symm
      rw [hb]
      exact ⟨hcond.1, Nat.le_of_lt hinv⟩
    · rw [timeout_tick_noemit_case b now hcond]
      refine ⟨rfl, hinv, ?_, by simp [addedEvents]⟩
      intro batch hbatch
      exact Option.noConfusion hbatch

theorem batchRun_facts (ops : List BatchOp) :
    ∀ b : EventBatcher, b.events.length < b.batch_size →
      (∀ batch ∈ (batchRun b ops).2,
        batch ≠ [] ∧ batch.length ≤ b.batch_size) ∧
      ((batchRun b ops).2.flatten ++ (batchRun b ops).1.events =
        b.events ++ addedEvents ops) := by
  induction ops with
  | nil =>
    intro b hinv
    refine ⟨by simp [batchRun], ?_⟩
    simp [batchRun, addedEvents]
  | cons op rest ih =>
    intro b hinv
    obtain ⟨hsz, hinv1, hbatch, hcons⟩ := batchStep_facts b op hinv
    have hrun : batchRun b (op :: rest) =
        ((batchRun (batchStep b op).1 rest).1,
         (match (batchStep b op).2 with
          | some batch => [batch]
          | none => []) ++ (batchRun (batchStep b op).1 rest).2) := rfl
    have hinv1x : (batchStep b op).1.events.length <
        (batchStep b op).1.batch_size := by rw [hsz]; exact hinv1
    obtain ⟨ihb, ihc⟩ := ih (batchStep b op).1 hinv1x
    constructor
    · intro batch hmem
      rw [hrun] at hmem
      simp only [List.mem_append] at hmem
      rcases hmem with hmem | hmem
      · cases hem : (batchStep b op).2 with
        | none => rw [hem] at hmem; simp at hmem
        | some bt =>
          rw [hem] at hmem
          simp only [List.mem_singleton] at hmem
          rw [hmem]
          exact hbatch bt hem
      · have := ihb batch hmem
        rw [hsz] at this
        exact this
    · rw [hrun]
      simp only [List.flatten_append]
      have hflat : (match (batchStep b op).2 with
          | some batch => [batch]
          | none => []).flatten =
          (match (batchStep b op).2 with
          | some batch => batch
          | none => []) := by
        cases (batchStep b op).2 <;> simp
      calc (match (batchStep b op).2 with
            | some batch => [batch]
            | none => []).flatten ++ (batchRun (batchStep b op).1 rest).2.flatten
              ++ (batchRun (batchStep b op).1 rest).1.events
          = (match (batchStep b op).2 with
            | some batch => batch
            | none => []) ++ ((batchRun (batchStep b op).1 rest).2.flatten
              ++ (batchRun (batchStep b op).1 rest).1.events) := by
            rw [hflat, List.append_assoc]
        _ = (match (batchStep b op).2 with
            | some batch => batch
            | none => []) ++ ((batchStep b op).1.events ++ addedEvents rest) := by
            rw [ihc]
        _ = b.events ++ addedEvents (op :: rest) := by
            rw [← List.append_assoc, hcons]
            have : addedEvents [op] ++ addedEvents rest =
                addedEvents (op :: rest) := by
              cases op <;> simp [addedEvents]
            rw [List.append_assoc, this]

/-- C10: over any discrete trace of event arrivals and timeout-checker
wakeups, the batcher never emits an empty batch; every emitted batch has
at most batch-size events; the concatenation of the emitted batches
followed by the residual buffer is exactly the added events in order;
and a step emits precisely when the buffer reaches the batch size on an
arrival, or the flush timeout has elapsed since the previous emission
while the buffer is non-empty. -/
theorem event_batcher_batches (B T t0 : Nat) (hB : 1 ≤ B)
    (ops : List BatchOp) :
    (∀ batch ∈ (batchRun (newBatcher B T t0) ops).2,
      batch ≠ [] ∧ batch.length ≤ B) ∧
    ((batchRun (newBatcher B T t0) ops).2.flatten ++
      (batchRun (newBatcher B T t0) ops).1.events = addedEvents ops) ∧
    (∀ (b : EventBatcher) (e : FileEvent) (now : Nat),
      (((add_event b e now).2 ≠ none) ↔
        (b.events.length + 1 ≥ b.batch_size ∨
          now - b.last_emit ≥ b.batch_timeout)) ∧
      (((timeout_tick b now).2 ≠ none) ↔
        (b.events ≠ [] ∧ now - b.last_emit ≥ b.batch_timeout))) := by
  have hinv : (newBatcher B T t0).events.length < (newBatcher B T t0).batch_size := by
    simp [newBatcher]
    omega
  obtain ⟨h1, h2⟩ := batchRun_facts ops (newBatcher B T t0) hinv
  refine ⟨h1, ?_, ?_⟩
  · simpa [newBatcher] using h2
  · intro b e now
    exact ⟨add_event_emits_iff b e now, timeout_tick_emits_iff b now⟩

/-- C10, witness: the batcher at batch size 2 and timeout 100 started at
instant 0, fed two events at instant 5 (second arrival fills the buffer
and emits) and a wakeup at instant 200. -/
theorem event_batcher_batches_witness :
    (1 : Nat) ≤ 2 ∧
    (∀ batch ∈ (batchRun (newBatcher 2 100 0)
        [BatchOp.add (FileEvent.created "a" 5) 5,
         BatchOp.add (FileEvent.created "b" 5) 5,
         BatchOp.tick 200]).2, batch ≠ [] ∧ batch.length ≤ 2) ∧
    (batchRun (newBatcher 2 100 0)
        [BatchOp.add (FileEvent.created "a" 5) 5,
         BatchOp.add (FileEvent.created "b" 5) 5,
         BatchOp.tick 200]).2.flatten ++
      (batchRun (newBatcher 2 100 0)
        [BatchOp.add (FileEvent.created "a" 5) 5,
         BatchOp.add (FileEvent.created "b" 5) 5,
         BatchOp.tick 200]).1.events =
      addedEvents
        [BatchOp.add (FileEvent.created "a" 5) 5,
         BatchOp.add (FileEvent.created "b" 5) 5,
         BatchOp.tick 200] := by
  have h := event_batcher_batches 2 100 0 (by decide)
    [BatchOp.add (FileEvent.created "a" 5) 5,
     BatchOp.add (FileEvent.created "b" 5) 5,
     BatchOp.tick 200]
  exact ⟨by decide, h.1, h.2.1⟩

end WsIde
